import Mathlib

/-!
Verification development for the chunking + embedding + vector-index +
retrieval subsystem (app/core/chunker.py, app/core/embeddings.py,
app/core/retriever.py).

Python text is modelled as `List Char`, numpy vectors as an abstract type
`α`, FAISS distances as rationals, and raised exceptions as `Except Unit`.
-/

set_option maxHeartbeats 1000000

namespace DebtRag

/-! ### Text chunker — app/core/chunker.py -/

namespace Chunker

/-- `CHUNK_SIZE = 1500  # characters` -/
def CHUNK_SIZE : Nat := 1500

/-- `OVERLAP = 300      # characters` -/
def OVERLAP : Nat := 300

/-- Whitespace characters removed by Python `str.strip()` (ASCII subset). -/
def isSpaceChar (c : Char) : Bool :=
  c = ' ' || c = '\t' || c = '\n' || c = '\r' || c = '\x0b' || c = '\x0c'

/-- Python `s.strip()`: drop leading and trailing whitespace. -/
def strip (s : List Char) : List Char :=
  ((s.dropWhile isSpaceChar).reverse.dropWhile isSpaceChar).reverse

/-- Python slice `s[a:b]` (for 0 ≤ a ≤ b). -/
def slice (s : List Char) (a b : Nat) : List Char :=
  (s.take b).drop a

/-- A chunk dict as built in `chunk_and_store` (before `chunk_id` is
assigned by the persistence collaborator). -/
structure Chunk where
  document_id : String
  page_no : Nat
  char_start : Nat
  char_end : Nat
  text : List Char
deriving DecidableEq

/-- The `while start < text_len` loop of `chunk_and_store`, walked with
explicit fuel so that the definition is structural and computable.  The local
variables `end = min(start + CHUNK_SIZE, text_len)` and
`chunk_text = text[start:end]` of the Python loop are inlined.  `none` means
the fuel ran out before the loop finished; `chunkWalk_isSome` below proves
that `text.length + 1` fuel always suffices, so the loop terminates. -/
def chunkWalk (document_id : String) (page_no : Nat) (text : List Char) :
    Nat → Nat → Option (List Chunk)
  | 0, _ => none
  | fuel + 1, start =>
    if start < text.length then
      if (strip (slice text start (min (start + CHUNK_SIZE) text.length))).length < 50 then
        some []
      else if min (start + CHUNK_SIZE) text.length = text.length then
        some [⟨document_id, page_no, start, min (start + CHUNK_SIZE) text.length,
               slice text start (min (start + CHUNK_SIZE) text.length)⟩]
      else
        (chunkWalk document_id page_no text fuel
            (min (start + CHUNK_SIZE) text.length - OVERLAP)).map
          (⟨document_id, page_no, start, min (start + CHUNK_SIZE) text.length,
            slice text start (min (start + CHUNK_SIZE) text.length)⟩ :: ·)
    else
      some []

/-- Chunks produced for one page: `if not text.strip(): continue` guard, then
the walk from `start = 0`.  The `getD []` default is unreachable by
`chunkWalk_isSome`. -/
def chunkPage (document_id : String) (page_no : Nat) (text : List Char) :
    List Chunk :=
  if strip text = [] then []
  else (chunkWalk document_id page_no text (text.length + 1) 0).getD []

/-- A page record `{page_no, text}`. -/
structure Page where
  page_no : Nat
  text : List Char

/-- `chunk_and_store`: per-page chunks concatenated in page order (the
persistence of chunk ids is the external collaborator, out of scope). -/
def chunk_and_store (document_id : String) (pages : List Page) : List Chunk :=
  (pages.map (fun p => chunkPage document_id p.page_no p.text)).flatten

/-- Enough fuel: one unit of fuel per remaining character is more than the
loop can consume, since each iteration advances `start` by at least one. -/
theorem chunkWalk_isSome (d : String) (p : Nat) (text : List Char) :
    ∀ fuel start, text.length - start < fuel →
      (chunkWalk d p text fuel start).isSome := by
  intro fuel
  induction fuel with
  | zero => intro start h; omega
  | succ n ih =>
    intro start h
    rw [chunkWalk]
    by_cases hs : start < text.length
    · simp only [hs, if_true]
      by_cases hshort :
          (strip (slice text start (min (start + CHUNK_SIZE) text.length))).length < 50
      · simp [hshort]
      · simp only [hshort, if_false]
        by_cases hend : min (start + CHUNK_SIZE) text.length = text.length
        · simp [hend]
        · simp only [hend, if_false]
          have hrec := ih (min (start + CHUNK_SIZE) text.length - OVERLAP) (by
            simp only [CHUNK_SIZE, OVERLAP] at *
            omega)
          cases hx : chunkWalk d p text n (min (start + CHUNK_SIZE) text.length - OVERLAP) with
          | none => rw [hx] at hrec; simp at hrec
          | some l => rfl
    · simp [hs]

/-- Every chunk produced by the loop has whitespace-stripped length ≥ 50. -/
theorem chunkWalk_mem_minlen (d : String) (p : Nat) (text : List Char) :
    ∀ fuel start l, chunkWalk d p text fuel start = some l →
      ∀ c ∈ l, 50 ≤ (strip c.text).length := by
  intro fuel
  induction fuel with
  | zero => intro start l h; rw [chunkWalk] at h; simp at h
  | succ n ih =>
    intro start l h c hc
    rw [chunkWalk] at h
    by_cases hs : start < text.length
    · simp only [hs, if_true] at h
      by_cases hshort :
          (strip (slice text start (min (start + CHUNK_SIZE) text.length))).length < 50
      · simp only [hshort, if_true, Option.some.injEq] at h
        subst h; simp at hc
      · simp only [hshort, if_false] at h
        by_cases hend : min (start + CHUNK_SIZE) text.length = text.length
        · simp only [hend, if_true, Option.some.injEq] at h
          subst h
          simp only [List.mem_singleton] at hc
          subst hc
          rw [hend] at hshort
          exact Nat.le_of_not_lt hshort
        · simp only [hend, if_false] at h
          cases hx : chunkWalk d p text n (min (start + CHUNK_SIZE) text.length - OVERLAP) with
          | none => rw [hx] at h; simp at h
          | some l' =>
            rw [hx] at h
            simp only [Option.map_some', Option.some.injEq] at h
            subst h
            rcases List.mem_cons.mp hc with rfl | hc'
            · exact Nat.le_of_not_lt hshort
            · exact ih _ _ hx c hc'
    · simp only [hs, if_false, Option.some.injEq] at h
      subst h; simp at hc

/-- The first chunk of a (sub)walk starts at the current `start` and ends at
`min (start + CHUNK_SIZE) text.length`. -/
theorem chunkWalk_head_start (d : String) (p : Nat) (text : List Char)
    (fuel start : Nat) (l : List Chunk) (c : Chunk)
    (h : chunkWalk d p text fuel start = some l) (hh : l.head? = some c) :
    c.char_start = start ∧ c.char_end = min (start + CHUNK_SIZE) text.length := by
  cases fuel with
  | zero => rw [chunkWalk] at h; simp at h
  | succ n =>
    rw [chunkWalk] at h
    by_cases hs : start < text.length
    · simp only [hs, if_true] at h
      by_cases hshort :
          (strip (slice text start (min (start + CHUNK_SIZE) text.length))).length < 50
      · simp only [hshort, if_true, Option.some.injEq] at h
        subst h; simp at hh
      · simp only [hshort, if_false] at h
        by_cases hend : min (start + CHUNK_SIZE) text.length = text.length
        · simp only [hend, if_true, Option.some.injEq] at h
          subst h
          simp only [List.head?_cons, Option.some.injEq] at hh
          subst hh; exact ⟨rfl, hend.symm⟩
        · simp only [hend, if_false] at h
          cases hx : chunkWalk d p text n (min (start + CHUNK_SIZE) text.length - OVERLAP) with
          | none => rw [hx] at h; simp at h
          | some l' =>
            rw [hx] at h
            simp only [Option.map_some', Option.some.injEq] at h
            subst h
            simp only [List.head?_cons, Option.some.injEq] at hh
            subst hh; exact ⟨rfl, rfl⟩
    · simp only [hs, if_false, Option.some.injEq] at h
      subst h; simp at hh

/-- Consecutive chunks emitted by the loop have starts exactly
`CHUNK_SIZE - OVERLAP` apart. -/
theorem chunkWalk_chain (d : String) (p : Nat) (text : List Char) :
    ∀ fuel start l, chunkWalk d p text fuel start = some l →
      List.Chain' (fun a b => b.char_start = a.char_start + (CHUNK_SIZE - OVERLAP)) l := by
  intro fuel
  induction fuel with
  | zero => intro start l h; rw [chunkWalk] at h; simp at h
  | succ n ih =>
    intro start l h
    rw [chunkWalk] at h
    by_cases hs : start < text.length
    · simp only [hs, if_true] at h
      by_cases hshort :
          (strip (slice text start (min (start + CHUNK_SIZE) text.length))).length < 50
      · simp only [hshort, if_true, Option.some.injEq] at h
        subst h; exact List.chain'_nil
      · simp only [hshort, if_false] at h
        by_cases hend : min (start + CHUNK_SIZE) text.length = text.length
        · simp only [hend, if_true, Option.some.injEq] at h
          subst h; exact List.chain'_singleton _
        · simp only [hend, if_false] at h
          cases hx : chunkWalk d p text n (min (start + CHUNK_SIZE) text.length - OVERLAP) with
          | none => rw [hx] at h; simp at h
          | some l' =>
            rw [hx] at h
            simp only [Option.map_some', Option.some.injEq] at h
            subst h
            refine List.chain'_cons'.mpr ⟨?_, ih _ _ hx⟩
            intro b hb
            have hstart := (chunkWalk_head_start d p text n _ l' b hx hb).1
            simp only [hstart]
            simp only [CHUNK_SIZE, OVERLAP] at *
            omega
    · simp only [hs, if_false, Option.some.injEq] at h
      subst h; exact List.chain'_nil

/-- The loop emits at most `(text.length - start) / (CHUNK_SIZE - OVERLAP) + 1`
chunks: each non-final iteration advances `start` by `CHUNK_SIZE - OVERLAP`. -/
theorem chunkWalk_count (d : String) (p : Nat) (text : List Char) :
    ∀ fuel start l, chunkWalk d p text fuel start = some l →
      l.length ≤ (text.length - start) / (CHUNK_SIZE - OVERLAP) + 1 := by
  intro fuel
  induction fuel with
  | zero => intro start l h; rw [chunkWalk] at h; simp at h
  | succ n ih =>
    intro start l h
    rw [chunkWalk] at h
    by_cases hs : start < text.length
    · simp only [hs, if_true] at h
      by_cases hshort :
          (strip (slice text start (min (start + CHUNK_SIZE) text.length))).length < 50
      · simp only [hshort, if_true, Option.some.injEq] at h
        subst h; simp
      · simp only [hshort, if_false] at h
        by_cases hend : min (start + CHUNK_SIZE) text.length = text.length
        · simp only [hend, if_true, Option.some.injEq] at h
          subst h; simp
        · simp only [hend, if_false] at h
          cases hx : chunkWalk d p text n (min (start + CHUNK_SIZE) text.length - OVERLAP) with
          | none => rw [hx] at h; simp at h
          | some l' =>
            rw [hx] at h
            simp only [Option.map_some', Option.some.injEq] at h
            subst h
            have hlen := ih _ _ hx
            simp only [List.length_cons]
            simp only [CHUNK_SIZE, OVERLAP] at *
            omega
    · simp only [hs, if_false, Option.some.injEq] at h
      subst h; simp

/-- A window whose stripped text is shorter than 50 stops the page walk with
no further chunks: the remaining tail is dropped. -/
theorem chunkWalk_stop (d : String) (p : Nat) (text : List Char) (fuel start : Nat)
    (hs : start < text.length)
    (hshort : (strip (slice text start (min (start + CHUNK_SIZE) text.length))).length < 50) :
    chunkWalk d p text (fuel + 1) start = some [] := by
  rw [chunkWalk]
  simp [hs, hshort]

/-- Conversely, an empty completed walk from a position inside the page can
only arise from the short-window stop. -/
theorem chunkWalk_nil_short (d : String) (p : Nat) (text : List Char)
    (fuel start : Nat) (h : chunkWalk d p text fuel start = some [])
    (hs : start < text.length) :
    (strip (slice text start (min (start + CHUNK_SIZE) text.length))).length < 50 := by
  cases fuel with
  | zero => rw [chunkWalk] at h; simp at h
  | succ n =>
    rw [chunkWalk] at h
    simp only [hs, if_true] at h
    by_cases hshort :
        (strip (slice text start (min (start + CHUNK_SIZE) text.length))).length < 50
    · exact hshort
    · exfalso
      simp only [hshort, if_false] at h
      by_cases hend : min (start + CHUNK_SIZE) text.length = text.length
      · simp [hend] at h
      · simp only [hend, if_false] at h
        cases hx : chunkWalk d p text n (min (start + CHUNK_SIZE) text.length - OVERLAP) with
        | none => rw [hx] at h; simp at h
        | some l' => rw [hx] at h; simp at h

/-- The last emitted chunk either reaches the end of the page, or the window
right after it (starting `OVERLAP` back from its end) strips to fewer than 50
characters and was dropped. -/
theorem chunkWalk_last (d : String) (p : Nat) (text : List Char) :
    ∀ fuel start l c, chunkWalk d p text fuel start = some l → l.getLast? = some c →
      c.char_end = text.length ∨
      (strip (slice text (c.char_end - OVERLAP)
        (min (c.char_end - OVERLAP + CHUNK_SIZE) text.length))).length < 50 := by
  intro fuel
  induction fuel with
  | zero => intro start l c h _; rw [chunkWalk] at h; simp at h
  | succ n ih =>
    intro start l c h hl
    rw [chunkWalk] at h
    by_cases hs : start < text.length
    · simp only [hs, if_true] at h
      by_cases hshort :
          (strip (slice text start (min (start + CHUNK_SIZE) text.length))).length < 50
      · simp only [hshort, if_true, Option.some.injEq] at h
        subst h; simp at hl
      · simp only [hshort, if_false] at h
        by_cases hend : min (start + CHUNK_SIZE) text.length = text.length
        · simp only [hend, if_true, Option.some.injEq] at h
          subst h
          simp only [List.getLast?_singleton, Option.some.injEq] at hl
          subst hl
          exact Or.inl rfl
        · simp only [hend, if_false] at h
          cases hx : chunkWalk d p text n (min (start + CHUNK_SIZE) text.length - OVERLAP) with
          | none => rw [hx] at h; simp at h
          | some l' =>
            rw [hx] at h
            simp only [Option.map_some', Option.some.injEq] at h
            subst h
            cases l' with
            | nil =>
              simp only [List.getLast?_singleton, Option.some.injEq] at hl
              subst hl
              refine Or.inr ?_
              have hs' : min (start + CHUNK_SIZE) text.length - OVERLAP < text.length := by
                simp only [CHUNK_SIZE, OVERLAP] at *
                omega
              exact chunkWalk_nil_short d p text n _ hx hs'
            | cons b l'' =>
              rw [List.getLast?_cons_cons] at hl
              exact ih _ _ c hx hl
    · simp only [hs, if_false, Option.some.injEq] at h
      subst h; simp at hl

theorem dropWhile_replicate_append_pos {p : Char → Bool} {c : Char} (h : p c = true) :
    ∀ (n : Nat) (l : List Char), (List.replicate n c ++ l).dropWhile p = l.dropWhile p := by
  intro n
  induction n with
  | zero => intro l; simp
  | succ m ih => intro l; simp [List.replicate_succ, List.dropWhile_cons, h, ih]

theorem dropWhile_replicate_append_neg {p : Char → Bool} {c : Char} (h : p c = false)
    (n : Nat) (hn : 0 < n) (l : List Char) :
    (List.replicate n c ++ l).dropWhile p = List.replicate n c ++ l := by
  cases n with
  | zero => omega
  | succ m => simp [List.replicate_succ, List.dropWhile_cons, h]

theorem dropWhile_replicate_neg {p : Char → Bool} {c : Char} (h : p c = false) (n : Nat) :
    (List.replicate n c).dropWhile p = List.replicate n c := by
  cases n with
  | zero => simp
  | succ m => simp [List.replicate_succ, List.dropWhile_cons, h]

theorem dropWhile_replicate_pos {p : Char → Bool} {c : Char} (h : p c = true) (n : Nat) :
    (List.replicate n c).dropWhile p = [] := by
  induction n with
  | zero => simp
  | succ m ih => simp [List.replicate_succ, List.dropWhile_cons, h, ih]

/-- Stripping a block of non-space characters followed by spaces keeps just
the content block. -/
theorem strip_content_space {c : Char} (hc : isSpaceChar c = false) (m k : Nat)
    (hm : 0 < m) :
    strip (List.replicate m c ++ List.replicate k ' ') = List.replicate m c := by
  unfold strip
  rw [dropWhile_replicate_append_neg hc m hm]
  rw [List.reverse_append, List.reverse_replicate, List.reverse_replicate]
  rw [dropWhile_replicate_append_pos (by decide) k]
  rw [dropWhile_replicate_neg hc m, List.reverse_replicate]

theorem strip_replicate_content {c : Char} (hc : isSpaceChar c = false) (m : Nat) :
    strip (List.replicate m c) = List.replicate m c := by
  unfold strip
  rw [dropWhile_replicate_neg hc m, List.reverse_replicate,
      dropWhile_replicate_neg hc m, List.reverse_replicate]

theorem strip_spaces (k : Nat) : strip (List.replicate k ' ') = [] := by
  unfold strip
  rw [dropWhile_replicate_pos (by decide) k]
  simp

/-- Spec scenario page: 2000 content characters. -/
def pageA : List Char := List.replicate 2000 'a'

/-- Counterexample page: 50 content characters padded by 1650 spaces
(total length 1700). -/
def pageB : List Char := List.replicate 50 'a' ++ List.replicate 1650 ' '

theorem pageA_length : pageA.length = 2000 := by
  simp only [pageA, List.length_replicate]

theorem pageB_length : pageB.length = 1700 := by
  simp only [pageB, List.length_append, List.length_replicate]

theorem slice_pageA_first : slice pageA 0 1500 = List.replicate 1500 'a' := by
  unfold pageA slice
  rw [List.take_replicate]
  norm_num

theorem slice_pageA_second : slice pageA 1200 2000 = List.replicate 800 'a' := by
  unfold pageA slice
  rw [List.take_replicate, List.drop_replicate]
  norm_num

theorem slice_pageB_first :
    slice pageB 0 1500 = List.replicate 50 'a' ++ List.replicate 1450 ' ' := by
  unfold pageB slice
  rw [List.take_append_eq_append_take, List.take_replicate, List.take_replicate]
  norm_num

theorem slice_pageB_second : slice pageB 1200 1700 = List.replicate 500 ' ' := by
  unfold pageB slice
  rw [List.take_append_eq_append_take, List.take_replicate, List.take_replicate,
      List.drop_append_eq_append_drop, List.drop_replicate, List.drop_replicate]
  norm_num

/-- The walk on the 2000-content-character page emits exactly the two chunks
`[0,1500)` and `[1200,2000)` (for any sufficient fuel). -/
theorem chunkWalkA (fuel : Nat) :
    chunkWalk "doc" 1 pageA (fuel + 2) 0 =
      some [⟨"doc", 1, 0, 1500, List.replicate 1500 'a'⟩,
            ⟨"doc", 1, 1200, 2000, List.replicate 800 'a'⟩] := by
  have hmin1 : min (0 + CHUNK_SIZE) pageA.length = 1500 := by
    simp only [CHUNK_SIZE, pageA_length]; omega
  have hmin2 : min (1200 + CHUNK_SIZE) pageA.length = 2000 := by
    simp only [CHUNK_SIZE, pageA_length]; omega
  show chunkWalk "doc" 1 pageA ((fuel + 1) + 1) 0 = _
  rw [chunkWalk]
  rw [if_pos (by rw [pageA_length]; omega)]
  rw [hmin1, slice_pageA_first, strip_replicate_content (by decide) 1500]
  rw [if_neg (by rw [List.length_replicate]; omega)]
  rw [if_neg (by rw [pageA_length]; omega)]
  have hstart2 : 1500 - OVERLAP = 1200 := by simp only [OVERLAP]
  rw [hstart2, chunkWalk]
  rw [if_pos (by rw [pageA_length]; omega)]
  rw [hmin2, slice_pageA_second, strip_replicate_content (by decide) 800]
  rw [if_neg (by rw [List.length_replicate]; omega)]
  rw [if_pos pageA_length.symm]
  rfl

/-- The walk on the space-padded page emits only the chunk `[0,1500)`: the
second window `[1200,1700)` is all spaces and is dropped, so the last chunk
does NOT end at the page length 1700. -/
theorem chunkWalkB (fuel : Nat) :
    chunkWalk "doc" 1 pageB (fuel + 2) 0 =
      some [⟨"doc", 1, 0, 1500, List.replicate 50 'a' ++ List.replicate 1450 ' '⟩] := by
  have hmin1 : min (0 + CHUNK_SIZE) pageB.length = 1500 := by
    simp only [CHUNK_SIZE, pageB_length]; omega
  have hmin2 : min (1200 + CHUNK_SIZE) pageB.length = 1700 := by
    simp only [CHUNK_SIZE, pageB_length]; omega
  show chunkWalk "doc" 1 pageB ((fuel + 1) + 1) 0 = _
  rw [chunkWalk]
  rw [if_pos (by rw [pageB_length]; omega)]
  rw [hmin1, slice_pageB_first, strip_content_space (by decide) 50 1450 (by omega)]
  rw [if_neg (by rw [List.length_replicate]; omega)]
  rw [if_neg (by rw [pageB_length]; omega)]
  have hstart2 : 1500 - OVERLAP = 1200 := by simp only [OVERLAP]
  rw [hstart2, chunkWalk]
  rw [if_pos (by rw [pageB_length]; omega)]
  rw [hmin2, slice_pageB_second, strip_spaces 500]
  rw [if_pos (by norm_num)]
  rfl

theorem chunkPageA :
    chunkPage "doc" 1 pageA =
      [⟨"doc", 1, 0, 1500, List.replicate 1500 'a'⟩,
       ⟨"doc", 1, 1200, 2000, List.replicate 800 'a'⟩] := by
  have hstrip : strip pageA = List.replicate 2000 'a' :=
    strip_replicate_content (by decide) 2000
  rw [chunkPage, if_neg (by rw [hstrip]; simp)]
  rw [pageA_length]
  have hf : (2000 : Nat) + 1 = 1999 + 2 := by norm_num
  rw [hf, chunkWalkA 1999]
  rfl

theorem chunkPageB :
    chunkPage "doc" 1 pageB =
      [⟨"doc", 1, 0, 1500, List.replicate 50 'a' ++ List.replicate 1450 ' '⟩] := by
  have hstrip : strip pageB = List.replicate 50 'a' :=
    strip_content_space (by decide) 50 1650 (by omega)
  rw [chunkPage, if_neg (by rw [hstrip]; simp)]
  rw [pageB_length]
  have hf : (1700 : Nat) + 1 = 1699 + 2 := by norm_num
  rw [hf, chunkWalkB 1699]
  rfl

/-- Claim C5 counterexample: the page `pageB` (50 content characters then
1650 spaces, length 1700) emits exactly one chunk `[0,1500)`, so the last
chunk's end offset (1500) does not equal the page length (1700): the claim
"the last chunk's end offset equals L" fails on this input. -/
theorem claim_C5_counterexample :
    (chunkPage "doc" 1 pageB).map (fun c => (c.char_start, c.char_end)) = [(0, 1500)] ∧
    pageB.length = 1700 ∧
    ((chunkPage "doc" 1 pageB).getLast?).map Chunk.char_end ≠ some pageB.length := by
  refine ⟨?_, pageB_length, ?_⟩
  · rw [chunkPageB]; rfl
  · rw [chunkPageB, pageB_length]; decide

/-- Claim C5 (amended): for every page text, the start offsets of emitted
chunks increase by exactly `CHUNK_SIZE - OVERLAP = 1200` from one chunk to the
next; the last chunk's end offset equals the page length UNLESS the window
following it strips to fewer than 50 characters (in which case the tail was
dropped); and a page of 2000 content characters yields exactly chunks
`[0,1500)` and `[1200,2000)`. -/
theorem claim_C5_amended :
    (∀ (d : String) (p : Nat) (text : List Char),
      List.Chain' (fun a b => b.char_start = a.char_start + (CHUNK_SIZE - OVERLAP))
        (chunkPage d p text)) ∧
    (∀ (d : String) (p : Nat) (text : List Char) (c : Chunk),
      (chunkPage d p text).getLast? = some c →
        c.char_end = text.length ∨
        (strip (slice text (c.char_end - OVERLAP)
          (min (c.char_end - OVERLAP + CHUNK_SIZE) text.length))).length < 50) ∧
    (chunkPage "doc" 1 pageA).map (fun c => (c.char_start, c.char_end)) =
      [(0, 1500), (1200, 2000)] := by
  refine ⟨?_, ?_, ?_⟩
  · intro d p text
    rw [chunkPage]
    by_cases h : strip text = []
    · simp [h]
    · rw [if_neg h]
      obtain ⟨l, hl⟩ := Option.isSome_iff_exists.mp
        (chunkWalk_isSome d p text (text.length + 1) 0 (by omega))
      rw [hl]
      exact chunkWalk_chain d p text _ _ _ hl
  · intro d p text c hc
    rw [chunkPage] at hc
    by_cases h : strip text = []
    · rw [if_pos h] at hc; simp at hc
    · rw [if_neg h] at hc
      obtain ⟨l, hl⟩ := Option.isSome_iff_exists.mp
        (chunkWalk_isSome d p text (text.length + 1) 0 (by omega))
      rw [hl] at hc
      exact chunkWalk_last d p text _ _ _ c hl hc
  · rw [chunkPageA]; rfl

/-- Witness for the amended claim C5 at a concrete page of 50 content
characters: its single chunk ends at the page length. -/
theorem claim_C5_amended_witness :
    (chunkPage "w" 7 (List.replicate 50 'a')).getLast? =
        some ⟨"w", 7, 0, 50, List.replicate 50 'a'⟩ ∧
    ((⟨"w", 7, 0, 50, List.replicate 50 'a'⟩ : Chunk).char_end =
        (List.replicate 50 'a').length ∨
      (strip (slice (List.replicate 50 'a')
        ((⟨"w", 7, 0, 50, List.replicate 50 'a'⟩ : Chunk).char_end - OVERLAP)
        (min ((⟨"w", 7, 0, 50, List.replicate 50 'a'⟩ : Chunk).char_end - OVERLAP +
            CHUNK_SIZE)
          (List.replicate 50 'a').length))).length < 50) :=
  ⟨by decide, claim_C5_amended.2.1 "w" 7 (List.replicate 50 'a') _ (by decide)⟩

/-- Claim C6: no chunk whose whitespace-stripped text is shorter than 50
characters is ever emitted; and when the walk meets such a window it stops the
page at once, returning no further chunks (the tail is dropped). -/
theorem claim_C6 :
    (∀ (d : String) (p : Nat) (text : List Char), ∀ c ∈ chunkPage d p text,
        50 ≤ (strip c.text).length) ∧
    (∀ (d : String) (p : Nat) (text : List Char) (fuel start : Nat),
        start < text.length →
        (strip (slice text start (min (start + CHUNK_SIZE) text.length))).length < 50 →
        chunkWalk d p text (fuel + 1) start = some []) := by
  constructor
  · intro d p text c hc
    rw [chunkPage] at hc
    by_cases h : strip text = []
    · rw [if_pos h] at hc; simp at hc
    · rw [if_neg h] at hc
      obtain ⟨l, hl⟩ := Option.isSome_iff_exists.mp
        (chunkWalk_isSome d p text (text.length + 1) 0 (by omega))
      rw [hl] at hc
      exact chunkWalk_mem_minlen d p text _ _ _ hl c hc
  · intro d p text fuel start hs hshort
    exact chunkWalk_stop d p text fuel start hs hshort

/-- Witness for claim C6: a concrete emitted chunk has stripped length ≥ 50,
and a 10-character page stops immediately with no chunks. -/
theorem claim_C6_witness :
    (50 ≤ (strip (⟨"w", 7, 0, 50, List.replicate 50 'a'⟩ : Chunk).text).length) ∧
    chunkWalk "w" 7 (List.replicate 10 'a') 1 0 = some [] :=
  ⟨claim_C6.1 "w" 7 (List.replicate 50 'a') _ (by decide),
   claim_C6.2 "w" 7 (List.replicate 10 'a') 0 0 (by decide) (by decide)⟩

/-- Claim C9: the chunking walk always terminates.  With fuel
`text.length + 1` the walk completes from any start position (each non-final
iteration advances `start` by `CHUNK_SIZE - OVERLAP = 1200 > 0`), each page
contributes at most `L / 1200 + 1` chunks, and a document's chunk count is
bounded by the sum of its per-page bounds. -/
theorem claim_C9 : (∀ (d : String) (p : Nat) (text : List Char) (start : Nat),
      (chunkWalk d p text (text.length + 1) start).isSome) ∧
    (∀ (d : String) (p : Nat) (text : List Char),
      (chunkPage d p text).length ≤ text.length / (CHUNK_SIZE - OVERLAP) + 1) ∧
    (∀ (docid : String) (pages : List Page),
      (chunk_and_store docid pages).length ≤
        (pages.map (fun pg => pg.text.length / (CHUNK_SIZE - OVERLAP) + 1)).sum) := by
  have hpage : ∀ (d : String) (p : Nat) (text : List Char),
      (chunkPage d p text).length ≤ text.length / (CHUNK_SIZE - OVERLAP) + 1 := by
    intro d p text
    rw [chunkPage]
    by_cases h : strip text = []
    · simp [h]
    · rw [if_neg h]
      obtain ⟨l, hl⟩ := Option.isSome_iff_exists.mp
        (chunkWalk_isSome d p text (text.length + 1) 0 (by omega))
      rw [hl]
      have := chunkWalk_count d p text _ _ _ hl
      simpa using this
  refine ⟨?_, hpage, ?_⟩
  · intro d p text start
    exact chunkWalk_isSome d p text _ start (by omega)
  · intro docid pages
    rw [chunk_and_store, List.length_flatten, List.map_map]
    apply List.sum_le_sum
    intro pg _
    exact hpage docid pg.page_no pg.text

end Chunker

/-! ### Embedding provider and FAISS index store — app/core/embeddings.py

Vectors are abstracted to a type `α`; the sentence-transformer model is
abstracted to a deterministic per-text embedding `f` together with a
predicate `fails` saying on which batches `model.encode` raises.  The
global `_embedding_cache` dict is modelled as an insertion-ordered
association list (Python dicts preserve insertion order, `next(iter(d))`
is the earliest-inserted key).  Raised exceptions are `Except.error ()`. -/

namespace Embeddings

open Chunker in
/-- `ENABLE_CACHE` / `CACHE_SIZE` environment configuration. -/
structure EmbConfig where
  enable_cache : Bool
  cache_size : Nat

/-- The embedding-provider collaborator: `f` is the model's embedding of one
text, `fails` tells which `model.encode` calls raise, and `hash` models
`_hash_text` (the MD5 content hash used as cache key). -/
structure Embedder (α : Type) where
  f : String → α
  fails : List String → Bool
  hash : String → String

variable {α : Type}

/-- `model.encode(texts, ...)`: one vector per text, in order, or a raised
exception. -/
def encode (E : Embedder α) (texts : List String) : Except Unit (List α) :=
  if E.fails texts then .error () else .ok (texts.map E.f)

/-- Python dict assignment `d[k] = v`: update in place if the key is present
(keeping its position), else append at the end. -/
def dictInsert (cache : List (String × α)) (k : String) (v : α) :
    List (String × α) :=
  if (cache.lookup k).isSome then
    cache.map (fun p => if p.1 = k then (k, v) else p)
  else
    cache ++ [(k, v)]

/-- `embed_texts(texts, use_cache)`: returns the embeddings and the updated
cache, or an error if `model.encode` raises — or if the FIFO eviction
`cache.pop(next(iter(cache)))` runs on an empty cache (StopIteration). -/
def embed_texts (cfg : EmbConfig) (E : Embedder α) (cache : List (String × α))
    (texts : List String) (use_cache : Bool) :
    Except Unit (List α × List (String × α)) :=
  match texts with
  | [] => .ok ([], cache)
  | t :: rest =>
    match (if use_cache && cfg.enable_cache && rest.isEmpty then
             cache.lookup (E.hash t)
           else none) with
    | some v => .ok ([v], cache)
    | none =>
      match encode E (t :: rest) with
      | .error e => .error e
      | .ok embs =>
        if use_cache && cfg.enable_cache && rest.isEmpty then
          if cfg.cache_size ≤ cache.length then
            match cache with
            | [] => .error ()
            | _ :: cacheTail =>
              match embs with
              | [] => .error ()
              | v :: _ => .ok (embs, dictInsert cacheTail (E.hash t) v)
          else
            match embs with
            | [] => .error ()
            | v :: _ => .ok (embs, dictInsert cache (E.hash t) v)
        else
          .ok (embs, cache)

/-- A sequence of single-text `embed_texts(texts=[t], use_cache=True)` calls,
threading the global cache; stops at the first raised exception. -/
def runSingles (cfg : EmbConfig) (E : Embedder α) :
    List (String × α) → List String → Except Unit (List (String × α))
  | cache, [] => .ok cache
  | cache, t :: rest =>
    match embed_texts cfg E cache [t] true with
    | .error e => .error e
    | .ok (_, cache') => runSingles cfg E cache' rest

/-- A chunk dict as passed to `ensure_index_and_add`. -/
structure ChunkIn where
  chunk_id : Option Nat
  document_id : String
  page_no : Nat
  char_start : Nat
  char_end : Nat
  text : String
deriving DecidableEq

/-- A `_meta` entry (note the `page` alias duplicating `page_no`, as in the
source). -/
structure Meta where
  chunk_id : Option Nat
  document_id : String
  page_no : Nat
  page : Nat
  char_start : Nat
  char_end : Nat
  text : String
deriving DecidableEq

/-- The metadata entry appended for one chunk. -/
def chunkMeta (c : ChunkIn) : Meta :=
  ⟨c.chunk_id, c.document_id, c.page_no, c.page_no, c.char_start, c.char_end, c.text⟩

/-- The in-memory index/metadata pair (`_index`, `_meta`); `index.length` is
`_index.ntotal`. -/
structure IndexState (α : Type) where
  index : List α
  meta : List Meta

/-- `_save_index()`: persists the pair, but catches and only logs any
exception, so the caller always proceeds; on failure the durable copy is
left as it was. -/
def save_index (mem durable : IndexState α) (saveOk : Bool) : IndexState α :=
  if saveOk then mem else durable

/-- `ensure_index_and_add(chunks)`: no-op on empty input, else embed all
chunk texts in one batch (cache bypassed), append vectors and one metadata
entry per chunk, then persist.  Returns the new in-memory state, the new
durable state and the cache. -/
def ensure_index_and_add (cfg : EmbConfig) (E : Embedder α)
    (cache : List (String × α)) (mem durable : IndexState α)
    (chunks : List ChunkIn) (saveOk : Bool) :
    Except Unit (IndexState α × IndexState α × List (String × α)) :=
  if chunks.isEmpty then .ok (mem, durable, cache)
  else
    match embed_texts cfg E cache (chunks.map (·.text)) false with
    | .error e => .error e
    | .ok (embs, cache') =>
      let memNew : IndexState α := ⟨mem.index ++ embs, mem.meta ++ chunks.map chunkMeta⟩
      .ok (memNew, save_index memNew durable saveOk, cache')

/-- A search hit: a copied metadata entry with its `score = distance`. -/
structure Scored where
  meta : Meta
  score : ℚ
deriving DecidableEq

/-- Python list indexing `l[i]` with negative-index semantics; `none` is an
IndexError. -/
def pyGet (l : List Meta) (i : Int) : Option Meta :=
  if 0 ≤ i then l.get? i.toNat
  else if (l.length : Int) + i < 0 then none
  else l.get? ((l.length : Int) + i).toNat

/-- The result-collection loop of `search_index`: walk `(distance, idx)`
pairs, skip the `-1` sentinel and positions beyond the metadata list, apply
the document filter when a scope is given, and stop once `top_k` results are
collected. -/
def searchLoop (meta : List Meta) (document_ids : List String) (top_k : Nat) :
    List (ℚ × Int) → List Scored → Except Unit (List Scored)
  | [], acc => .ok acc
  | (dist, idx) :: rest, acc =>
    if idx = -1 ∨ (meta.length : Int) ≤ idx then
      searchLoop meta document_ids top_k rest acc
    else
      match pyGet meta idx with
      | none => .error ()
      | some m =>
        if document_ids ≠ [] ∧ m.document_id ∉ document_ids then
          searchLoop meta document_ids top_k rest acc
        else
          if top_k ≤ (acc ++ [(⟨m, dist⟩ : Scored)]).length then
            .ok (acc ++ [(⟨m, dist⟩ : Scored)])
          else searchLoop meta document_ids top_k rest (acc ++ [(⟨m, dist⟩ : Scored)])

/-- `search_index(query, top_k, document_ids)`: empty result on an empty
index; embed the query through the cache-eligible single-text path; request
`min(top_k * 10 if document_ids else top_k, ntotal)` candidates from the
FAISS search (modelled as the oracle `faiss`, returning `(distance, idx)`
pairs); then filter and truncate.  Returns the results and the updated
cache. -/
def search_index (cfg : EmbConfig) (E : Embedder α) (cache : List (String × α))
    (st : IndexState α) (faiss : α → Nat → List (ℚ × Int))
    (query : String) (top_k : Nat) (document_ids : List String) :
    Except Unit (List Scored × List (String × α)) :=
  if st.index.length = 0 then .ok ([], cache)
  else
    match embed_texts cfg E cache [query] true with
    | .error e => .error e
    | .ok (qemb, cache') =>
      match qemb with
      | [] => .error ()
      | qv :: _ =>
        match searchLoop st.meta document_ids top_k
            (faiss qv (min (if document_ids ≠ [] then top_k * 10 else top_k)
              st.index.length)) [] with
        | .error e => .error e
        | .ok results => .ok (results, cache')

theorem lookup_append_of_none {l₁ l₂ : List (String × α)} {k : String}
    (h : l₁.lookup k = none) : (l₁ ++ l₂).lookup k = l₂.lookup k := by
  induction l₁ with
  | nil => simp
  | cons a l ih =>
    obtain ⟨k', v'⟩ := a
    simp only [List.lookup] at h
    cases hk : (k == k') with
    | true => rw [hk] at h; simp at h
    | false =>
      rw [hk] at h
      rw [List.cons_append]
      simp only [List.lookup, hk]
      exact ih h

theorem lookup_eq_none_of_not_mem_keys {l : List (String × α)} {k : String}
    (h : k ∉ l.map Prod.fst) : l.lookup k = none := by
  induction l with
  | nil => rfl
  | cons a l ih =>
    obtain ⟨k', v'⟩ := a
    simp only [List.map_cons, List.mem_cons] at h
    push_neg at h
    simp only [List.lookup]
    have : (k == k') = false := by
      simp only [beq_eq_false_iff_ne, ne_eq]
      exact h.1
    rw [this]
    exact ih h.2

theorem dictInsert_of_lookup_none {cache : List (String × α)} {k : String}
    (v : α) (h : cache.lookup k = none) :
    dictInsert cache k v = cache ++ [(k, v)] := by
  simp [dictInsert, h]

theorem dictInsert_length_le (cache : List (String × α)) (k : String) (v : α) :
    (dictInsert cache k v).length ≤ cache.length + 1 := by
  rw [dictInsert]
  by_cases h : (cache.lookup k).isSome
  · simp [h]
  · simp [h]

/-- A batch call (`use_cache=False`) that does not raise returns one vector
per text, in order, and leaves the cache untouched. -/
theorem embed_texts_nocache_ok (cfg : EmbConfig) (E : Embedder α)
    (cache : List (String × α)) (ts : List String) (h : E.fails ts = false) :
    embed_texts cfg E cache ts false = .ok (ts.map E.f, cache) := by
  cases ts with
  | nil => rfl
  | cons t rest => simp [embed_texts, encode, h]

theorem embed_texts_nocache (cfg : EmbConfig) (E : Embedder α)
    (cache : List (String × α)) (ts : List String) (out : List α)
    (cache' : List (String × α))
    (h : embed_texts cfg E cache ts false = .ok (out, cache')) :
    out = ts.map E.f ∧ cache' = cache := by
  cases ts with
  | nil =>
    simp only [embed_texts, Except.ok.injEq, Prod.mk.injEq] at h
    exact ⟨h.1.symm, h.2.symm⟩
  | cons t rest =>
    cases hf : E.fails (t :: rest) with
    | false =>
      rw [embed_texts_nocache_ok cfg E cache (t :: rest) hf] at h
      simp only [Except.ok.injEq, Prod.mk.injEq] at h
      exact ⟨h.1.symm, h.2.symm⟩
    | true => simp [embed_texts, encode, hf] at h

/-- A cache hit returns the stored vector and leaves the cache unchanged. -/
theorem embed_texts_hit (cfg : EmbConfig) (E : Embedder α)
    (cache : List (String × α)) (t : String) (v : α)
    (henable : cfg.enable_cache = true)
    (hl : cache.lookup (E.hash t) = some v) :
    embed_texts cfg E cache [t] true = .ok ([v], cache) := by
  simp [embed_texts, henable, hl]

/-- A single-text miss that raises in `model.encode` propagates the error. -/
theorem embed_texts_miss_fail (cfg : EmbConfig) (E : Embedder α)
    (cache : List (String × α)) (t : String)
    (hl : cache.lookup (E.hash t) = none) (hf : E.fails [t] = true) :
    embed_texts cfg E cache [t] true = .error () := by
  simp [embed_texts, encode, hf, hl]

/-- No successful `embed_texts` call can grow the cache beyond the configured
capacity. -/
theorem embed_texts_capacity (cfg : EmbConfig) (E : Embedder α)
    (cache : List (String × α)) (texts : List String) (uc : Bool)
    (out : List α) (cache' : List (String × α))
    (hcap : cache.length ≤ cfg.cache_size)
    (h : embed_texts cfg E cache texts uc = .ok (out, cache')) :
    cache'.length ≤ cfg.cache_size := by
  cases texts with
  | nil =>
    simp only [embed_texts, Except.ok.injEq, Prod.mk.injEq] at h
    rw [← h.2]; exact hcap
  | cons t rest =>
    cases hopt : (if uc && cfg.enable_cache && rest.isEmpty then
        cache.lookup (E.hash t) else none) with
    | some v =>
      simp only [embed_texts, hopt, Except.ok.injEq, Prod.mk.injEq] at h
      rw [← h.2]; exact hcap
    | none =>
      cases henc : encode E (t :: rest) with
      | error e => simp only [embed_texts, hopt, henc] at h; exact Except.noConfusion h
      | ok embs =>
        simp only [embed_texts, hopt, henc] at h
        by_cases hc : (uc && cfg.enable_cache && rest.isEmpty) = true
        · rw [if_pos hc] at h
          by_cases hcap2 : cfg.cache_size ≤ cache.length
          · rw [if_pos hcap2] at h
            cases cache with
            | nil => simp at h
            | cons c0 tail =>
              cases embs with
              | nil => simp at h
              | cons v vs =>
                simp only [Except.ok.injEq, Prod.mk.injEq] at h
                rw [← h.2]
                have hd := dictInsert_length_le tail (E.hash t) v
                simp only [List.length_cons] at hcap
                omega
          · rw [if_neg hcap2] at h
            cases embs with
            | nil => simp at h
            | cons v vs =>
              simp only [Except.ok.injEq, Prod.mk.injEq] at h
              rw [← h.2]
              have hd := dictInsert_length_le cache (E.hash t) v
              omega
        · rw [if_neg hc] at h
          simp only [Except.ok.injEq, Prod.mk.injEq] at h
          rw [← h.2]; exact hcap

theorem runSingles_capacity (cfg : EmbConfig) (E : Embedder α) :
    ∀ (ts : List String) (cache cache' : List (String × α)),
      cache.length ≤ cfg.cache_size → runSingles cfg E cache ts = .ok cache' →
      cache'.length ≤ cfg.cache_size := by
  intro ts
  induction ts with
  | nil =>
    intro cache cache' hcap h
    simp only [runSingles, Except.ok.injEq] at h
    rw [← h]; exact hcap
  | cons t rest ih =>
    intro cache cache' hcap h
    cases hemb : embed_texts cfg E cache [t] true with
    | error e => simp only [runSingles, hemb] at h; exact Except.noConfusion h
    | ok pr =>
      obtain ⟨o, c₂⟩ := pr
      simp only [runSingles, hemb] at h
      exact ih c₂ cache' (embed_texts_capacity cfg E cache [t] true o c₂ hcap hemb) h

theorem runSingles_append (cfg : EmbConfig) (E : Embedder α) :
    ∀ (l₁ : List String) (cache c₁ : List (String × α)) (l₂ : List String),
      runSingles cfg E cache l₁ = .ok c₁ →
      runSingles cfg E cache (l₁ ++ l₂) = runSingles cfg E c₁ l₂ := by
  intro l₁
  induction l₁ with
  | nil =>
    intro cache c₁ l₂ h
    simp only [runSingles, Except.ok.injEq] at h
    rw [List.nil_append, h]
  | cons t rest ih =>
    intro cache c₁ l₂ h
    cases hemb : embed_texts cfg E cache [t] true with
    | error e => simp only [runSingles, hemb] at h; exact Except.noConfusion h
    | ok pr =>
      obtain ⟨o, c₂⟩ := pr
      simp only [runSingles, hemb] at h
      rw [List.cons_append]
      simp only [runSingles, hemb]
      exact ih c₂ c₁ l₂ h

/-- Filling phase of the FIFO behaviour: while there is room, distinct fresh
single-text calls append entries in insertion order without evicting. -/
theorem runSingles_fill (cfg : EmbConfig) (E : Embedder α)
    (henable : cfg.enable_cache = true) :
    ∀ (ts : List String) (cache : List (String × α)),
      (∀ t ∈ ts, E.fails [t] = false) →
      (∀ t ∈ ts, cache.lookup (E.hash t) = none) →
      (ts.map E.hash).Nodup →
      cache.length + ts.length ≤ cfg.cache_size →
      runSingles cfg E cache ts =
        .ok (cache ++ ts.map (fun t => (E.hash t, E.f t))) := by
  intro ts
  induction ts with
  | nil => intro cache _ _ _ _; simp [runSingles]
  | cons t rest ih =>
    intro cache hfail hmiss hnodup hlen
    simp only [List.length_cons] at hlen
    have hmt : cache.lookup (E.hash t) = none := hmiss t (by simp)
    have hft : E.fails [t] = false := hfail t (by simp)
    have hlt : ¬ (cfg.cache_size ≤ cache.length) := by omega
    have hembed : embed_texts cfg E cache [t] true =
        .ok ([E.f t], cache ++ [(E.hash t, E.f t)]) := by
      simp [embed_texts, henable, hmt, encode, hft, hlt,
        dictInsert_of_lookup_none (E.f t) hmt]
    simp only [runSingles, hembed]
    have hmiss' : ∀ t' ∈ rest,
        (cache ++ [(E.hash t, E.f t)]).lookup (E.hash t') = none := by
      intro t' ht'
      rw [lookup_append_of_none (hmiss t' (List.mem_cons_of_mem t ht'))]
      have hne : (E.hash t' == E.hash t) = false := by
        simp only [List.map_cons, List.nodup_cons] at hnodup
        simp only [beq_eq_false_iff_ne, ne_eq]
        intro hEq
        exact hnodup.1 (hEq ▸ List.mem_map_of_mem E.hash ht')
      simp [List.lookup, hne]
    have hnodup' : (rest.map E.hash).Nodup := by
      simp only [List.map_cons, List.nodup_cons] at hnodup
      exact hnodup.2
    have hfail' : ∀ t' ∈ rest, E.fails [t'] = false :=
      fun t' ht' => hfail t' (List.mem_cons_of_mem t ht')
    have hlen' : (cache ++ [(E.hash t, E.f t)]).length + rest.length ≤
        cfg.cache_size := by
      simp only [List.length_append, List.length_cons, List.length_nil]
      omega
    rw [ih (cache ++ [(E.hash t, E.f t)]) hfail' hmiss' hnodup' hlen']
    simp

/-- Claim C7: after any sequence of single-text `embed_texts` calls the cache
never holds more entries than the configured capacity; a cache hit returns
the stored vector without touching the cache (so it cannot change the
eviction order); and from an empty cache, inserting capacity+1 distinct
single-text embeddings (capacity ≥ 1) leaves exactly the later `capacity`
entries in insertion order — the first-inserted entry is the one evicted
(FIFO). -/
theorem claim_C7 :
    (∀ (α : Type) (cfg : EmbConfig) (E : Embedder α) (ts : List String)
        (cache cache' : List (String × α)),
      cache.length ≤ cfg.cache_size → runSingles cfg E cache ts = .ok cache' →
      cache'.length ≤ cfg.cache_size) ∧
    (∀ (α : Type) (cfg : EmbConfig) (E : Embedder α)
        (cache : List (String × α)) (t : String) (v : α),
      cfg.enable_cache = true → cache.lookup (E.hash t) = some v →
      embed_texts cfg E cache [t] true = .ok ([v], cache)) ∧
    (∀ (α : Type) (cfg : EmbConfig) (E : Embedder α) (t₀ : String)
        (ts : List String),
      cfg.enable_cache = true → 0 < cfg.cache_size → ts.length = cfg.cache_size →
      (∀ t ∈ t₀ :: ts, E.fails [t] = false) →
      ((t₀ :: ts).map E.hash).Nodup →
      runSingles cfg E [] (t₀ :: ts) =
        .ok (ts.map (fun t => (E.hash t, E.f t)))) := by
  refine ⟨?_, ?_, ?_⟩
  · intro α cfg E ts cache cache' hcap h
    exact runSingles_capacity cfg E ts cache cache' hcap h
  · intro α cfg E cache t v henable hl
    exact embed_texts_hit cfg E cache t v henable hl
  · intro α cfg E t₀ ts henable hpos hlen hfail hnodup
    rcases List.eq_nil_or_concat ts with rfl | ⟨init, tl, rfl⟩
    · simp at hlen; omega
    · have hlen' : init.length + 1 = cfg.cache_size := by
        rw [← hlen]; simp [List.concat_eq_append]
      rw [List.concat_eq_append] at hfail hnodup ⊢
      have hnodupSplit :
          ((E.hash t₀ :: init.map E.hash) ++ [E.hash tl]).Nodup := by
        simpa [List.map_append] using hnodup
      obtain ⟨hnodupPre, _, hdisj⟩ := List.nodup_append.mp hnodupSplit
      have htlNotPre : E.hash tl ∉ E.hash t₀ :: init.map E.hash := by
        intro hmem
        exact (hdisj hmem) (by simp)
      have hfill : runSingles cfg E [] (t₀ :: init) =
          .ok ((t₀ :: init).map (fun t => (E.hash t, E.f t))) := by
        have h0 := runSingles_fill cfg E henable (t₀ :: init) []
        simp only [List.nil_append, List.length_nil, Nat.zero_add] at h0
        apply h0
        · intro t ht
          apply hfail
          rcases List.mem_cons.mp ht with rfl | h'
          · exact List.mem_cons_self _ _
          · exact List.mem_cons_of_mem _ (List.mem_append_left _ h')
        · intro t _; rfl
        · simpa using hnodupPre
        · simp only [List.length_cons]; omega
      have hrw : t₀ :: (init ++ [tl]) = (t₀ :: init) ++ [tl] := by simp
      rw [hrw, runSingles_append cfg E (t₀ :: init) [] _ [tl] hfill]
      have hkeys : ((t₀ :: init).map (fun t => (E.hash t, E.f t))).map Prod.fst =
          (t₀ :: init).map E.hash := by
        simp [List.map_map, Function.comp]
      have hmtl : ((t₀ :: init).map (fun t => (E.hash t, E.f t))).lookup
          (E.hash tl) = none := by
        apply lookup_eq_none_of_not_mem_keys
        rw [hkeys]
        simpa using htlNotPre
      have hftl : E.fails [tl] = false := hfail tl (by simp)
      have hcapfull : cfg.cache_size ≤
          ((t₀ :: init).map (fun t => (E.hash t, E.f t))).length := by
        simp only [List.length_map, List.length_cons]
        omega
      have hmtlTail : (init.map (fun t => (E.hash t, E.f t))).lookup
          (E.hash tl) = none := by
        apply lookup_eq_none_of_not_mem_keys
        have : E.hash tl ∉ init.map E.hash := by
          intro hmem
          exact htlNotPre (List.mem_cons_of_mem _ hmem)
        simpa [List.map_map, Function.comp] using this
      have hmtlCons : List.lookup (E.hash tl)
          ((E.hash t₀, E.f t₀) :: init.map (fun t => (E.hash t, E.f t))) = none := by
        simpa using hmtl
      have hembed : embed_texts cfg E
          ((t₀ :: init).map (fun t => (E.hash t, E.f t))) [tl] true =
          .ok ([E.f tl], init.map (fun t => (E.hash t, E.f t)) ++
            [(E.hash tl, E.f tl)]) := by
        have hcap2 : cfg.cache_size ≤ init.length + 1 := by omega
        simp [embed_texts, henable, hmtl, encode, hftl, hcapfull,
          dictInsert_of_lookup_none (E.f tl) hmtlTail, hmtlCons, hcap2]
      simp only [runSingles, hembed, List.map_append]
      simp

/-- Claim C10: with caching enabled and configured capacity 0, any single
uncached text makes `embed_texts` raise — `cache.pop(next(iter(cache)))` runs
on the empty dict — instead of returning a vector; with capacity ≥ 1 and a
working encoder the cache-eligible single-text path always returns
normally. -/
theorem claim_C10 :
    (∀ (α : Type) (cfg : EmbConfig) (E : Embedder α) (t : String),
      cfg.enable_cache = true → cfg.cache_size = 0 → E.fails [t] = false →
      embed_texts cfg E [] [t] true = .error ()) ∧
    (∀ (α : Type) (cfg : EmbConfig) (E : Embedder α)
        (cache : List (String × α)) (t : String),
      cfg.enable_cache = true → 1 ≤ cfg.cache_size → E.fails [t] = false →
      (embed_texts cfg E cache [t] true).isOk = true) := by
  constructor
  · intro α cfg E t henable hcap hf
    simp [embed_texts, henable, encode, hf, hcap]
  · intro α cfg E cache t henable hcap hf
    cases hl : cache.lookup (E.hash t) with
    | some v => rw [embed_texts_hit cfg E cache t v henable hl]; rfl
    | none =>
      by_cases hc : cfg.cache_size ≤ cache.length
      · cases cache with
        | nil => simp at hc; omega
        | cons c0 tail =>
          have hc2 : cfg.cache_size ≤ tail.length + 1 := by simpa using hc
          simp [embed_texts, henable, hl, encode, hf, hc2, Except.isOk, Except.toBool]
      · simp [embed_texts, henable, hl, encode, hf, hc, Except.isOk, Except.toBool]

/-- Claim C2: `ensure_index_and_add` preserves the metadata-length =
vector-count invariant: it appends exactly one metadata entry per chunk, in
the same order as the appended vectors. -/
theorem claim_C2 :
    ∀ (α : Type) (cfg : EmbConfig) (E : Embedder α)
      (cache : List (String × α)) (mem durable : IndexState α)
      (chunks : List ChunkIn) (saveOk : Bool)
      (memN durableN : IndexState α) (cacheN : List (String × α)),
      mem.meta.length = mem.index.length →
      ensure_index_and_add cfg E cache mem durable chunks saveOk =
        .ok (memN, durableN, cacheN) →
      memN.meta.length = memN.index.length ∧
      memN.index = mem.index ++ (chunks.map (fun c => c.text)).map E.f ∧
      memN.meta = mem.meta ++ chunks.map chunkMeta := by
  intro α cfg E cache mem durable chunks saveOk memN durableN cacheN hinv h
  by_cases hc : chunks.isEmpty
  · have hnil : chunks = [] := List.isEmpty_iff.mp hc
    subst hnil
    simp only [ensure_index_and_add, List.isEmpty_nil, if_true, Except.ok.injEq,
      Prod.mk.injEq] at h
    obtain ⟨h1, _, _⟩ := h
    subst h1
    simp [hinv]
  · simp only [ensure_index_and_add, hc, Bool.false_eq_true, if_false] at h
    cases hemb : embed_texts cfg E cache (chunks.map (fun c => c.text)) false with
    | error e => rw [hemb] at h; exact Except.noConfusion h
    | ok pr =>
      obtain ⟨embs, cache₂⟩ := pr
      obtain ⟨hembs, _⟩ := embed_texts_nocache cfg E cache _ _ _ hemb
      rw [hemb] at h
      simp only [Except.ok.injEq, Prod.mk.injEq] at h
      obtain ⟨h1, _, _⟩ := h
      subst hembs
      rw [← h1]
      refine ⟨?_, rfl, rfl⟩
      simp only [List.length_append, List.length_map, hinv]

/-- Claim C8: if persisting fails after a successful in-memory add, the call
still returns normally with the appended vectors and metadata resident in
memory; the durable pair is simply left as it was (failure only logged). -/
theorem claim_C8 :
    ∀ (α : Type) (cfg : EmbConfig) (E : Embedder α)
      (cache : List (String × α)) (mem durable : IndexState α)
      (chunks : List ChunkIn),
      chunks ≠ [] → E.fails (chunks.map (fun c => c.text)) = false →
      ensure_index_and_add cfg E cache mem durable chunks false =
        .ok (⟨mem.index ++ (chunks.map (fun c => c.text)).map E.f,
              mem.meta ++ chunks.map chunkMeta⟩, durable, cache) := by
  intro α cfg E cache mem durable chunks hne hf
  have hc : chunks.isEmpty = false := by
    cases chunks with
    | nil => exact absurd rfl hne
    | cons a l => rfl
  simp only [ensure_index_and_add, hc, Bool.false_eq_true, if_false]
  rw [embed_texts_nocache_ok cfg E cache _ hf]
  simp [save_index]

/-- Scope filtering invariant of the collection loop: with a non-empty scope,
every collected result's document id is in scope. -/
theorem searchLoop_scope (meta : List Meta) (ids : List String) (top_k : Nat) :
    ∀ (hits : List (ℚ × Int)) (acc res : List Scored),
      ids ≠ [] →
      (∀ s ∈ acc, s.meta.document_id ∈ ids) →
      searchLoop meta ids top_k hits acc = .ok res →
      ∀ s ∈ res, s.meta.document_id ∈ ids := by
  intro hits
  induction hits with
  | nil =>
    intro acc res hids hacc h
    simp only [searchLoop, Except.ok.injEq] at h
    rw [← h]; exact hacc
  | cons hit rest ih =>
    intro acc res hids hacc h
    obtain ⟨dist, idx⟩ := hit
    rw [searchLoop] at h
    by_cases hskip : idx = -1 ∨ (meta.length : Int) ≤ idx
    · rw [if_pos hskip] at h
      exact ih acc res hids hacc h
    · rw [if_neg hskip] at h
      cases hg : pyGet meta idx with
      | none => simp only [hg] at h; exact Except.noConfusion h
      | some m =>
        simp only [hg] at h
        by_cases hfilter : ids ≠ [] ∧ m.document_id ∉ ids
        · rw [if_pos hfilter] at h
          exact ih acc res hids hacc h
        · rw [if_neg hfilter] at h
          have hmem : m.document_id ∈ ids := by
            rcases not_and_or.mp hfilter with h1 | h2
            · exact absurd hids h1
            · exact not_not.mp h2
          have hacc' : ∀ s ∈ acc ++ [(⟨m, dist⟩ : Scored)],
              s.meta.document_id ∈ ids := by
            intro s hs
            rcases List.mem_append.mp hs with hs | hs
            · exact hacc s hs
            · simp only [List.mem_singleton] at hs
              subst hs
              exact hmem
          by_cases hk : top_k ≤ (acc ++ [(⟨m, dist⟩ : Scored)]).length
          · rw [if_pos hk] at h
            simp only [Except.ok.injEq] at h
            rw [← h]; exact hacc'
          · rw [if_neg hk] at h
            exact ih _ res hids hacc' h

/-- Claim C1: with a non-empty document scope, `search_index` returns only
chunks whose document id is in scope — for any index contents, any FAISS
candidate list and any `top_k`. -/
theorem claim_C1 :
    ∀ (α : Type) (cfg : EmbConfig) (E : Embedder α)
      (cache : List (String × α)) (st : IndexState α)
      (faiss : α → Nat → List (ℚ × Int)) (query : String) (top_k : Nat)
      (ids : List String) (res : List Scored) (cacheN : List (String × α)),
      ids ≠ [] →
      search_index cfg E cache st faiss query top_k ids = .ok (res, cacheN) →
      ∀ s ∈ res, s.meta.document_id ∈ ids := by
  intro α cfg E cache st faiss query top_k ids res cacheN hids h
  by_cases hempty : st.index.length = 0
  · rw [search_index, if_pos hempty] at h
    simp only [Except.ok.injEq, Prod.mk.injEq] at h
    rw [← h.1]
    intro s hs
    simp at hs
  · rw [search_index, if_neg hempty] at h
    cases hemb : embed_texts cfg E cache [query] true with
    | error e => simp only [hemb] at h; exact Except.noConfusion h
    | ok pr =>
      obtain ⟨qemb, cache₂⟩ := pr
      simp only [hemb] at h
      cases qemb with
      | nil => simp at h
      | cons qv qrest =>
        cases hloop : searchLoop st.meta ids top_k
            (faiss qv (min (if ids ≠ [] then top_k * 10 else top_k)
              st.index.length)) [] with
        | error e => simp only [hloop] at h; exact Except.noConfusion h
        | ok results =>
          simp only [hloop, Except.ok.injEq, Prod.mk.injEq] at h
          rw [← h.1]
          exact searchLoop_scope st.meta ids top_k _ [] results hids
            (by intro s hs; simp at hs) hloop

/-! Concrete instances used by the claim witnesses. -/

def cfgW : EmbConfig := ⟨false, 1000⟩

def cfgC : EmbConfig := ⟨true, 2⟩

def embW : Embedder Nat := ⟨fun s => s.length, fun _ => false, fun s => s⟩

def embFailW : Embedder Nat := ⟨fun s => s.length, fun _ => true, fun s => s⟩

def mA : Meta := ⟨none, "A", 1, 1, 0, 5, "aaaaa"⟩

def mB : Meta := ⟨none, "B", 1, 1, 0, 5, "bbbbb"⟩

def mC : Meta := ⟨none, "C", 1, 1, 0, 5, "ccccc"⟩

def stW : IndexState Nat := ⟨[5, 5, 5], [mA, mB, mC]⟩

def faissW : Nat → Nat → List (ℚ × Int) := fun _ _ => [(0, 0), (0, 1), (0, 2)]

def chW : ChunkIn := ⟨none, "A", 1, 0, 5, "hello"⟩

/-- Witness for claim C1: an index holding documents A, B, C queried with
scope {A} returns only the A chunk, whose document id is in scope. -/
theorem claim_C1_witness :
    (["A"] ≠ ([] : List String)) ∧
    (⟨mA, 0⟩ : Scored).meta.document_id ∈ ["A"] :=
  ⟨by simp, claim_C1 Nat cfgW embW [] stW faissW "q" 5 ["A"] [⟨mA, 0⟩] []
    (by simp) rfl ⟨mA, 0⟩ (List.mem_singleton.mpr rfl)⟩

/-- Witness for claim C2 at one concrete chunk: the invariant holds after the
add and the appended vector and metadata entry line up. -/
theorem claim_C2_witness :
    (⟨[5], [chunkMeta chW]⟩ : IndexState Nat).meta.length =
        (⟨[5], [chunkMeta chW]⟩ : IndexState Nat).index.length ∧
    (⟨[5], [chunkMeta chW]⟩ : IndexState Nat).index =
        [] ++ ([chW].map (fun c => c.text)).map embW.f ∧
    (⟨[5], [chunkMeta chW]⟩ : IndexState Nat).meta = [] ++ [chW].map chunkMeta :=
  claim_C2 Nat cfgW embW [] ⟨[], []⟩ ⟨[], []⟩ [chW] true
    ⟨[5], [chunkMeta chW]⟩ ⟨[5], [chunkMeta chW]⟩ [] rfl rfl

/-- Witness for claim C8: with persistence failing, the add still returns
normally with the new in-memory state while the durable pair is unchanged. -/
theorem claim_C8_witness :
    ensure_index_and_add cfgW embW [] ⟨[], []⟩ ⟨[9], [mB]⟩ [chW] false =
      .ok (⟨[] ++ ([chW].map (fun c => c.text)).map embW.f,
            [] ++ [chW].map chunkMeta⟩, ⟨[9], [mB]⟩, []) :=
  claim_C8 Nat cfgW embW [] ⟨[], []⟩ ⟨[9], [mB]⟩ [chW] (by simp) rfl

/-- Witness for claim C7: capacity 2, inserting the three distinct texts
"a", "b", "c" evicts exactly the entry for "a"; plus concrete instances of
the capacity bound and the hit behaviour. -/
theorem claim_C7_witness :
    ([("x", 7), ("a", 1)] : List (String × Nat)).length ≤ cfgC.cache_size ∧
    embed_texts cfgC embW [("q", 9)] ["q"] true = .ok ([9], [("q", 9)]) ∧
    runSingles cfgC embW [] ["a", "b", "c"] = .ok [("b", 1), ("c", 1)] := by
  refine ⟨?_, ?_, ?_⟩
  · exact claim_C7.1 Nat cfgC embW ["a"] [("x", 7)] [("x", 7), ("a", 1)]
      (by simp [cfgC]) rfl
  · exact claim_C7.2.1 Nat cfgC embW [("q", 9)] "q" 9 rfl rfl
  · exact claim_C7.2.2 Nat cfgC embW "a" ["b", "c"] rfl (by simp [cfgC]) rfl
      (by intro t _; rfl) (by simp [embW])

/-- Witness for claim C10 at a concrete embedder: capacity 0 raises on an
uncached single text, capacity 2 succeeds. -/
theorem claim_C10_witness :
    embed_texts ⟨true, 0⟩ embW ([] : List (String × Nat)) ["a"] true =
        .error () ∧
    (embed_texts cfgC embW ([] : List (String × Nat)) ["a"] true).isOk = true :=
  ⟨claim_C10.1 Nat ⟨true, 0⟩ embW "a" rfl rfl rfl,
   claim_C10.2 Nat cfgC embW [] "a" rfl (by simp [cfgC]) rfl⟩

end Embeddings

/-! ### Retriever — app/core/retriever.py -/

namespace Retriever

open Embeddings

variable {α : Type}

/-- A result entry after `retrieve_top_k` attached its 1-based `rank`. -/
structure RankedHit where
  meta : Meta
  score : ℚ
  rank : Nat
deriving DecidableEq

/-- `for i, chunk in enumerate(results): chunk["rank"] = i + 1`, with the
counter starting at `start`. -/
def assignRanks : Nat → List Scored → List RankedHit
  | _, [] => []
  | i, s :: rest => ⟨s.meta, s.score, i⟩ :: assignRanks (i + 1) rest

/-- `retrieve_top_k`: search the index, return `[]` on an empty result, else
attach 1-based ranks.  The whole body runs under
`try: ... except Exception: return []`, so ANY raised exception (including an
embedding failure) is caught and turned into a normal empty result list. -/
def retrieve_top_k (cfg : EmbConfig) (E : Embedder α) (cache : List (String × α))
    (st : IndexState α) (faiss : α → Nat → List (ℚ × Int))
    (query : String) (document_ids : List String) (top_k : Nat) : List RankedHit :=
  match search_index cfg E cache st faiss query top_k document_ids with
  | .error _ => []
  | .ok (results, _) =>
    if results.isEmpty then [] else assignRanks 1 results

/-- A candidate after the second stage attached its `rerank_score`; the
`rank` field is carried over unchanged from stage 1. -/
structure RerankedHit where
  meta : Meta
  score : ℚ
  rank : Nat
  rerank_score : ℚ
deriving DecidableEq

/-- The blended score
`0.7 * (1 / (1 + score)) + 0.3 * min(len(text) / 1000, 1.0)`; the float
arithmetic of the source is modelled exactly over ℚ. -/
def rerankScore (c : RankedHit) : ℚ :=
  (7 / 10) * (1 / (1 + c.score)) + (3 / 10) * min ((c.meta.text.length : ℚ) / 1000) 1

def withRerank (c : RankedHit) : RerankedHit :=
  ⟨c.meta, c.score, c.rank, rerankScore c⟩

/-- Insertion step of a stable descending sort by `rerank_score`: an element
is placed before every later element with an equal or smaller key. -/
def insertDesc (x : RerankedHit) : List RerankedHit → List RerankedHit
  | [] => [x]
  | y :: ys =>
    if x.rerank_score < y.rerank_score then y :: insertDesc x ys
    else x :: y :: ys

/-- `sorted(candidates, key=lambda x: x["rerank_score"], reverse=True)`
(Python's sort is stable). -/
def sortByDesc : List RerankedHit → List RerankedHit
  | [] => []
  | x :: xs => insertDesc x (sortByDesc xs)

/-- `retrieve_with_reranking`: fetch `initial_k` candidates via
`retrieve_top_k`, attach the blended score, sort descending by it and
truncate to `top_k`.  The `rank` field is NOT reassigned after sorting. -/
def retrieve_with_reranking (cfg : EmbConfig) (E : Embedder α)
    (cache : List (String × α)) (st : IndexState α)
    (faiss : α → Nat → List (ℚ × Int)) (query : String)
    (document_ids : List String) (top_k initial_k : Nat) : List RerankedHit :=
  match retrieve_top_k cfg E cache st faiss query document_ids initial_k with
  | [] => []
  | candidates => (sortByDesc (candidates.map withRerank)).take top_k

theorem assignRanks_rank :
    ∀ (l : List Scored) (s i : Nat) (r : RankedHit),
      (assignRanks s l)[i]? = some r → r.rank = s + i := by
  intro l
  induction l with
  | nil => intro s i r h; simp [assignRanks] at h
  | cons a rest ih =>
    intro s i r h
    cases i with
    | zero =>
      simp only [assignRanks, List.getElem?_cons_zero, Option.some.injEq] at h
      rw [← h]; rfl
    | succ j =>
      simp only [assignRanks, List.getElem?_cons_succ] at h
      have := ih (s + 1) j r h
      omega

theorem mem_insertDesc (x : RerankedHit) :
    ∀ (l : List RerankedHit) (y : RerankedHit),
      y ∈ insertDesc x l → y = x ∨ y ∈ l := by
  intro l
  induction l with
  | nil => intro y hy; rw [insertDesc] at hy; exact Or.inl (List.mem_singleton.mp hy)
  | cons a rest ih =>
    intro y hy
    rw [insertDesc] at hy
    by_cases hc : x.rerank_score < a.rerank_score
    · rw [if_pos hc] at hy
      rcases List.mem_cons.mp hy with rfl | hy2
      · exact Or.inr (List.mem_cons_self _ _)
      · rcases ih y hy2 with h | h
        · exact Or.inl h
        · exact Or.inr (List.mem_cons_of_mem _ h)
    · rw [if_neg hc] at hy
      rcases List.mem_cons.mp hy with rfl | hy2
      · exact Or.inl rfl
      · exact Or.inr hy2

theorem mem_sortByDesc :
    ∀ (l : List RerankedHit) (y : RerankedHit), y ∈ sortByDesc l → y ∈ l := by
  intro l
  induction l with
  | nil => intro y hy; rw [sortByDesc] at hy; simp at hy
  | cons a rest ih =>
    intro y hy
    rw [sortByDesc] at hy
    rcases mem_insertDesc a _ y hy with rfl | hy2
    · exact List.mem_cons_self _ _
    · exact List.mem_cons_of_mem _ (ih y hy2)

/-- Claim C3 counterexample: with an embedding provider that raises, the
query embedding itself fails and the search layer propagates the error, but
`retrieve_top_k` — an operation that invokes the provider — catches it and
returns the empty list: a normal result, not a failure, reaches its
caller. -/
theorem claim_C3_counterexample :
    embed_texts cfgW embFailW ([] : List (String × Nat)) ["q"] true =
        .error () ∧
    search_index cfgW embFailW [] stW faissW "q" 5 ["A"] = .error () ∧
    retrieve_top_k cfgW embFailW [] stW faissW "q" ["A"] 5 = [] :=
  ⟨rfl, rfl, rfl⟩

/-- Claim C3 (amended): embedding failures propagate out of `embed_texts`,
`search_index` and `ensure_index_and_add` without local retry, but
`retrieve_top_k` wraps its body in `except Exception: return []`, so at the
retriever boundary an embedding failure is swallowed and surfaces as a normal
empty result instead of an error. -/
theorem claim_C3_amended :
    (∀ (α : Type) (cfg : EmbConfig) (E : Embedder α)
        (cache : List (String × α)) (ts : List String),
      ts ≠ [] → E.fails ts = true →
      embed_texts cfg E cache ts false = .error ()) ∧
    (∀ (α : Type) (cfg : EmbConfig) (E : Embedder α)
        (cache : List (String × α)) (st : IndexState α)
        (faiss : α → Nat → List (ℚ × Int)) (query : String) (top_k : Nat)
        (ids : List String),
      st.index.length ≠ 0 → cache.lookup (E.hash query) = none →
      E.fails [query] = true →
      search_index cfg E cache st faiss query top_k ids = .error ()) ∧
    (∀ (α : Type) (cfg : EmbConfig) (E : Embedder α)
        (cache : List (String × α)) (mem durable : IndexState α)
        (chunks : List ChunkIn) (saveOk : Bool),
      chunks ≠ [] → E.fails (chunks.map (fun c => c.text)) = true →
      ensure_index_and_add cfg E cache mem durable chunks saveOk = .error ()) ∧
    (∀ (α : Type) (cfg : EmbConfig) (E : Embedder α)
        (cache : List (String × α)) (st : IndexState α)
        (faiss : α → Nat → List (ℚ × Int)) (query : String)
        (ids : List String) (top_k : Nat) (e : Unit),
      search_index cfg E cache st faiss query top_k ids = .error e →
      retrieve_top_k cfg E cache st faiss query ids top_k = []) := by
  have hbatch : ∀ (α : Type) (cfg : EmbConfig) (E : Embedder α)
      (cache : List (String × α)) (ts : List String),
      ts ≠ [] → E.fails ts = true →
      embed_texts cfg E cache ts false = .error () := by
    intro α cfg E cache ts hne hf
    cases ts with
    | nil => exact absurd rfl hne
    | cons t rest => simp [embed_texts, encode, hf]
  refine ⟨hbatch, ?_, ?_, ?_⟩
  · intro α cfg E cache st faiss query top_k ids hne hl hf
    rw [search_index, if_neg hne,
      embed_texts_miss_fail cfg E cache query hl hf]
  · intro α cfg E cache mem durable chunks saveOk hne hf
    have hc : chunks.isEmpty = false := by
      cases chunks with
      | nil => exact absurd rfl hne
      | cons a l => rfl
    simp only [ensure_index_and_add, hc, Bool.false_eq_true, if_false]
    rw [hbatch α cfg E cache (chunks.map (fun c => c.text))
      (fun hmap => hne (List.map_eq_nil_iff.mp hmap)) hf]
  · intro α cfg E cache st faiss query ids top_k e h
    simp [retrieve_top_k, h]

/-- Witness for the amended claim C3 at a concrete failing provider. -/
theorem claim_C3_amended_witness :
    embed_texts cfgW embFailW ([] : List (String × Nat)) ["x", "y"] false =
        .error () ∧
    search_index cfgW embFailW [] stW faissW "q2" 5 ["A"] = .error () ∧
    ensure_index_and_add cfgW embFailW [] ⟨[], []⟩ ⟨[], []⟩ [chW] true =
        .error () ∧
    retrieve_top_k cfgW embFailW [] stW faissW "q2" ["A"] 5 = [] :=
  ⟨claim_C3_amended.1 Nat cfgW embFailW [] ["x", "y"] (by simp) rfl,
   claim_C3_amended.2.1 Nat cfgW embFailW [] stW faissW "q2" 5 ["A"]
     (by simp [stW]) rfl rfl,
   claim_C3_amended.2.2.1 Nat cfgW embFailW [] ⟨[], []⟩ ⟨[], []⟩ [chW] true
     (by simp) rfl,
   claim_C3_amended.2.2.2 Nat cfgW embFailW [] stW faissW "q2" ["A"] 5 () rfl⟩

/-! Concrete instances for the reranking claim. -/

def mShort : Meta := ⟨none, "A", 1, 1, 0, 1, "x"⟩

def mLong : Meta := ⟨none, "A", 1, 1, 0, 2, "xy"⟩

def stR : IndexState Nat := ⟨[0, 0], [mShort, mLong]⟩

def faissR : Nat → Nat → List (ℚ × Int) :=
  fun _ _ => [((0 : ℚ), (0 : Int)), ((0 : ℚ), (1 : Int))]

def stR1 : IndexState Nat := ⟨[0], [mShort]⟩

def faissR1 : Nat → Nat → List (ℚ × Int) := fun _ _ => [((0 : ℚ), (0 : Int))]

/-- Claim C4 counterexample: in the two-stage reranking variant the `rank`
field is not reassigned after sorting.  Two candidates at equal distance with
texts of length 1 and 2 rerank in the opposite order (the longer text gets
the higher blended score), so the entry at output position 0 carries rank 2,
not 1. -/
theorem claim_C4_counterexample :
    (retrieve_with_reranking cfgW embW [] stR faissR "q" [] 5 20).map
      (fun r => r.rank) = [2, 1] := by
  have hlt : rerankScore ⟨mShort, 0, 1⟩ < rerankScore ⟨mLong, 0, 2⟩ := by
    unfold rerankScore
    have h1 : (mShort.text.length : ℚ) = 1 := by
      norm_num [mShort, show "x".length = 1 from rfl]
    have h2 : (mLong.text.length : ℚ) = 2 := by
      norm_num [mLong, show "xy".length = 2 from rfl]
    rw [h1, h2]
    rw [min_eq_left (by norm_num : (1 : ℚ) / 1000 ≤ 1),
        min_eq_left (by norm_num : (2 : ℚ) / 1000 ≤ 1)]
    norm_num
  show ((sortByDesc ([⟨mShort, 0, 1⟩, ⟨mLong, 0, 2⟩].map withRerank)).take 5).map
      (fun r => r.rank) = [2, 1]
  simp only [List.map, withRerank, sortByDesc, insertDesc]
  rw [if_pos hlt]
  rfl

/-- Claim C4 (amended): in `retrieve_top_k` the entry at output position i
carries rank i+1; in `retrieve_with_reranking` the `rank` field is inherited
from the stage-1 order and not reassigned, so an output entry's rank is one
of the stage-1 ranks but need not match its final position. -/
theorem claim_C4_amended :
    (∀ (α : Type) (cfg : EmbConfig) (E : Embedder α)
        (cache : List (String × α)) (st : IndexState α)
        (faiss : α → Nat → List (ℚ × Int)) (query : String)
        (ids : List String) (top_k i : Nat) (r : RankedHit),
      (retrieve_top_k cfg E cache st faiss query ids top_k)[i]? = some r →
      r.rank = i + 1) ∧
    (∀ (α : Type) (cfg : EmbConfig) (E : Embedder α)
        (cache : List (String × α)) (st : IndexState α)
        (faiss : α → Nat → List (ℚ × Int)) (query : String)
        (ids : List String) (top_k initial_k : Nat) (r : RerankedHit),
      r ∈ retrieve_with_reranking cfg E cache st faiss query ids top_k initial_k →
      r.rank ∈ (retrieve_top_k cfg E cache st faiss query ids initial_k).map
        (fun c => c.rank)) := by
  constructor
  · intro α cfg E cache st faiss query ids top_k i r h
    cases hres : search_index cfg E cache st faiss query top_k ids with
    | error e => simp only [retrieve_top_k, hres] at h; simp at h
    | ok pr =>
      obtain ⟨results, cacheN⟩ := pr
      simp only [retrieve_top_k, hres] at h
      by_cases hemp : results.isEmpty
      · rw [if_pos hemp] at h; simp at h
      · rw [if_neg hemp] at h
        have := assignRanks_rank results 1 i r h
        omega
  · intro α cfg E cache st faiss query ids top_k initial_k r h
    cases hcand : retrieve_top_k cfg E cache st faiss query ids initial_k with
    | nil => simp only [retrieve_with_reranking, hcand] at h; simp at h
    | cons c0 cs =>
      simp only [retrieve_with_reranking, hcand] at h
      have h1 : r ∈ sortByDesc ((c0 :: cs).map withRerank) :=
        List.mem_of_mem_take h
      have h2 : r ∈ (c0 :: cs).map withRerank := mem_sortByDesc _ r h1
      obtain ⟨c, hc, rfl⟩ := List.mem_map.mp h2
      exact List.mem_map.mpr ⟨c, hc, rfl⟩

/-- Witness for the amended claim C4 at a single-candidate instance. -/
theorem claim_C4_amended_witness :
    (⟨mShort, 0, 1⟩ : RankedHit).rank = 0 + 1 ∧
    (withRerank ⟨mShort, 0, 1⟩).rank ∈
      (retrieve_top_k cfgW embW [] stR1 faissR1 "q" [] 20).map
        (fun c => c.rank) :=
  ⟨claim_C4_amended.1 Nat cfgW embW [] stR1 faissR1 "q" [] 5 0 ⟨mShort, 0, 1⟩ rfl,
   claim_C4_amended.2 Nat cfgW embW [] stR1 faissR1 "q" [] 5 20
     (withRerank ⟨mShort, 0, 1⟩) (List.mem_singleton.mpr rfl)⟩

end Retriever

end DebtRag
